import Mathlib

/-!
Shallow embedding of the `ept` typing-practice engine (Rust sources
`src/backend.rs` and `src/term.rs`) together with proofs of the spec's
claims about it.

Strings are modelled as `List Char`; Rust byte offsets are tracked
explicitly through the UTF-8 byte length of each character, mirroring
`char::len_utf8`.
-/

namespace Ept

/-- UTF-8 byte length of a character, mirroring Rust `char::len_utf8`. -/
def utf8Len (c : Char) : Nat :=
  if c.val < 0x80 then 1
  else if c.val < 0x800 then 2
  else if c.val < 0x10000 then 3
  else 4

/-- Total UTF-8 byte length of a string (Rust `str::len`). -/
def byteLen (s : List Char) : Nat :=
  (s.map utf8Len).sum

/-- Rust `char::is_whitespace`: the Unicode `White_Space` property. -/
def rustIsWhitespace (c : Char) : Bool :=
  c.val = 0x09 || c.val = 0x0A || c.val = 0x0B || c.val = 0x0C || c.val = 0x0D ||
  c.val = 0x20 || c.val = 0x85 || c.val = 0xA0 || c.val = 0x1680 ||
  (0x2000 ≤ c.val && c.val ≤ 0x200A) ||
  c.val = 0x2028 || c.val = 0x2029 || c.val = 0x202F || c.val = 0x205F ||
  c.val = 0x3000

/-- The prefix of `s` occupying the first `n` bytes (Rust slicing `s[..n]`).
For `n` lying on a character boundary this is exact; the state machine below
only ever slices at boundaries. -/
def takeBytes : List Char → Nat → List Char
  | [], _ => []
  | c :: rest, n => if utf8Len c ≤ n then c :: takeBytes rest (n - utf8Len c) else []

/-- The suffix of `s` after the first `n` bytes (Rust slicing `s[n..]`). -/
def dropBytes : List Char → Nat → List Char
  | [], _ => []
  | c :: rest, n => if utf8Len c ≤ n then dropBytes rest (n - utf8Len c) else c :: rest

/-- Rust `src/backend.rs Len`: a byte offset paired with a char-count offset into
the same text.  Rust derives `PartialEq`/`Eq` (structural, both fields) but
implements `PartialOrd`/`Ord` by comparing `bytes` alone. -/
structure Len where
  bytes : Nat
  chars : Nat
deriving DecidableEq, Repr

instance : Inhabited Len := ⟨⟨0, 0⟩⟩

/-- The manual `Ord for Len`: comparison delegates to the byte offset. -/
def Len.lt (a b : Len) : Prop := a.bytes < b.bytes

instance : LT Len := ⟨Len.lt⟩

instance (a b : Len) : Decidable (a < b) :=
  inferInstanceAs (Decidable (a.bytes < b.bytes))

instance : Add Len := ⟨fun a b => ⟨a.bytes + b.bytes, a.chars + b.chars⟩⟩

/-- Rust `Sub for Len` uses `usize` subtraction (panics on underflow); the
state machine only subtracts compatible positions, where `Nat` truncated
subtraction agrees. -/
instance : Sub Len := ⟨fun a b => ⟨a.bytes - b.bytes, a.chars - b.chars⟩⟩

theorem Len.add_def (a b : Len) : a + b = ⟨a.bytes + b.bytes, a.chars + b.chars⟩ := rfl

theorem Len.sub_def (a b : Len) : a - b = ⟨a.bytes - b.bytes, a.chars - b.chars⟩ := rfl

/-- Rust `src/backend.rs ALTERNATIVES`: for a typed character (the key), the list
of canonical characters it is also accepted for.  The entries are
U+2018/U+2019 for the straight apostrophe, U+201C/U+201D for the straight
double quote, and U+00A0 for the ASCII space. -/
def ALTERNATIVES : List (Char × List Char) :=
  [('\'', ['‘', '’']),
   ('\"', ['“', '”']),
   (' ',  [' '])]

/-- Rust `src/backend.rs chars_are_equal_including_unicode_alternatives`. -/
def chars_are_equal_including_unicode_alternatives (expected got : Char) : Bool :=
  if expected = got then true
  else
    match ALTERNATIVES.find? (fun x => x.1 = got) with
    | some alts => alts.2.contains expected
    | none => false

/-- Rust `src/backend.rs Backend` (the spec's TypingTracker).  The `styling` field
is omitted: it is never read or written by the operations under study. -/
structure Backend where
  text : List Char
  typed : List Char
  cursor : Len
  cursor_prev : Len
  errors : List Len
  deleted_errors : List Len
deriving DecidableEq, Repr

/-- The tracker state produced by `Backend::new` for a chapter whose
concatenated canonical text is `text` (the text itself is assembled by the
external content provider). -/
def Backend.fresh (text : List Char) : Backend :=
  { text := text
    typed := []
    cursor := ⟨0, 0⟩
    cursor_prev := ⟨0, 0⟩
    errors := []
    deleted_errors := [] }

/-- Rust `src/backend.rs Backend::clear_per_update_data`. -/
def Backend.clear_per_update_data (b : Backend) : Backend :=
  { b with deleted_errors := [] }

/-- Rust `src/backend.rs Backend::push`. -/
def Backend.push (b : Backend) (c : Char) : Backend :=
  match dropBytes b.text b.cursor.bytes with
  | [] => b
  | goal :: _ =>
    { b with
      typed := b.typed ++ [c]
      errors :=
        if chars_are_equal_including_unicode_alternatives goal c then b.errors
        else b.errors ++ [b.cursor]
      cursor_prev := b.cursor
      cursor := ⟨b.cursor.bytes + utf8Len goal, b.cursor.chars + 1⟩ }

/-- Rust `slice::partition_point`, which on a list partitioned by `p` (as
`errors` always is: it is kept sorted) returns the length of the prefix
satisfying `p`. -/
def partition_point (l : List Len) (p : Len → Bool) : Nat :=
  (l.takeWhile p).length

/-- Rust `src/backend.rs Backend::delete_backwards_impl`. -/
def Backend.delete_backwards_impl (b : Backend) (len typed : Len) : Backend :=
  let typed2 := takeBytes b.typed (byteLen b.typed - typed.bytes)
  let cursor2 := b.cursor - len
  let first := partition_point b.errors (fun i => i.bytes < cursor2.bytes)
  { b with
    typed := typed2
    cursor_prev := b.cursor
    cursor := cursor2
    errors := b.errors.take first
    deleted_errors := b.deleted_errors ++ b.errors.drop first }

/-- Rust `src/backend.rs Backend::pop`.  The `none` inner branch is unreachable in
reachable states (Rust unwraps there): a non-empty typed buffer forces a
non-zero cursor. -/
def Backend.pop (b : Backend) : Backend :=
  match b.typed.getLast? with
  | none => b
  | some typed =>
    match (takeBytes b.text b.cursor.bytes).getLast? with
    | none => b
    | some text => b.delete_backwards_impl ⟨utf8Len text, 1⟩ ⟨utf8Len typed, 1⟩

/-- The stateful `take_while` closure of `delete_word_backwards`: walking the
reversed typed buffer, keep a trailing whitespace run, then a non-whitespace
run, stopping at the next whitespace once a non-whitespace character has been
seen.  `found` models the captured `found_nonwhitespace` flag. -/
def takeWordRev : List Char → Bool → List Char
  | [], _ => []
  | c :: rest, found =>
    let ws := rustIsWhitespace c
    let found2 := found || !ws
    if found2 && ws then [] else c :: takeWordRev rest found2

/-- Rust `src/backend.rs Backend::delete_word_backwards`: zip the kept reversed
typed characters with the reversed canonical prefix before the cursor, fold
their per-character lengths componentwise, and delete. -/
def Backend.delete_word_backwards (b : Backend) : Backend :=
  let kept := takeWordRev b.typed.reverse false
  let textRev := (takeBytes b.text b.cursor.bytes).reverse
  let pairs := kept.zip textRev
  let sums := pairs.foldl
    (fun (acc : Len × Len) x =>
      (acc.1 + ⟨utf8Len x.1, 1⟩, acc.2 + ⟨utf8Len x.2, 1⟩))
    (⟨0, 0⟩, ⟨0, 0⟩)
  b.delete_backwards_impl sums.2 sums.1

/-- The tracker states reachable from a fresh session by `push`, `pop` and
`delete_word_backwards`. -/
inductive Reachable : Backend → Prop
  | init (text : List Char) : Reachable (Backend.fresh text)
  | push (c : Char) {b : Backend} : Reachable b → Reachable (b.push c)
  | pop {b : Backend} : Reachable b → Reachable b.pop
  | deleteWord {b : Backend} : Reachable b → Reachable b.delete_word_backwards

/-! ### Byte-length bookkeeping lemmas -/

theorem utf8Len_pos (c : Char) : 0 < utf8Len c := by
  unfold utf8Len
  split <;> try split <;> try split
  all_goals omega

theorem byteLen_nil : byteLen [] = 0 := rfl

theorem byteLen_cons (c : Char) (l : List Char) :
    byteLen (c :: l) = utf8Len c + byteLen l := by
  simp [byteLen]

theorem byteLen_append (a b : List Char) :
    byteLen (a ++ b) = byteLen a + byteLen b := by
  simp [byteLen]

theorem byteLen_reverse (l : List Char) : byteLen l.reverse = byteLen l := by
  simp [byteLen, List.sum_reverse]

theorem takeBytes_byteLen (l r : List Char) : takeBytes (l ++ r) (byteLen l) = l := by
  induction l with
  | nil =>
    cases r with
    | nil => rfl
    | cons c rest =>
      simp only [List.nil_append, byteLen_nil, takeBytes]
      have := utf8Len_pos c
      simp [Nat.not_le.mpr this, show ¬ utf8Len c ≤ 0 by omega]
  | cons a l ih =>
    simp only [List.cons_append, byteLen_cons, takeBytes]
    rw [if_pos (by omega), Nat.add_sub_cancel_left]
    exact congrArg (fun x => a :: x) ih

theorem dropBytes_byteLen (l r : List Char) : dropBytes (l ++ r) (byteLen l) = r := by
  induction l with
  | nil =>
    cases r with
    | nil => rfl
    | cons c rest =>
      simp only [List.nil_append, byteLen_nil, dropBytes]
      have := utf8Len_pos c
      rw [if_neg (by omega)]
  | cons a l ih =>
    simp only [List.cons_append, byteLen_cons, dropBytes]
    rw [if_pos (by omega), Nat.add_sub_cancel_left]
    exact ih

theorem takeBytes_take (s : List Char) (k : Nat) :
    takeBytes s (byteLen (s.take k)) = s.take k := by
  have h := takeBytes_byteLen (s.take k) (s.drop k)
  rwa [List.take_append_drop] at h

theorem dropBytes_take (s : List Char) (k : Nat) :
    dropBytes s (byteLen (s.take k)) = s.drop k := by
  have h := dropBytes_byteLen (s.take k) (s.drop k)
  rwa [List.take_append_drop] at h

/-- Splitting the byte length of a prefix at an inner index. -/
theorem byteLen_take_split (s : List Char) (j k : Nat) (h : j ≤ k) :
    byteLen (s.take k) = byteLen (s.take j) + byteLen ((s.take k).drop j) := by
  conv_lhs => rw [← List.take_append_drop j (s.take k)]
  rw [byteLen_append, List.take_take, Nat.min_eq_left h]

/-! ### Small list lemmas -/

theorem map_snd_zip_take {α β : Type} (l₁ : List α) (l₂ : List β) :
    (l₁.zip l₂).map Prod.snd = l₂.take l₁.length := by
  induction l₁ generalizing l₂ with
  | nil => simp
  | cons a t ih =>
    cases l₂ with
    | nil => simp
    | cons b t₂ => simp [List.zip_cons_cons, ih]

theorem takeWhile_all (p : Len → Bool) (l : List Len) (h : ∀ a ∈ l, p a) :
    l.takeWhile p = l :=
  List.takeWhile_eq_self_iff.mpr h

theorem dropWhile_all (p : Len → Bool) (l : List Len) (h : ∀ a ∈ l, p a) :
    l.dropWhile p = [] :=
  List.dropWhile_eq_nil_iff.mpr h

theorem takeWhile_append_not (p : Len → Bool) (l : List Len) (a : Len)
    (hl : ∀ x ∈ l, p x) (ha : ¬ p a) : (l ++ [a]).takeWhile p = l := by
  induction l with
  | nil => simp [List.takeWhile, ha]
  | cons x t ih =>
    have hx : p x := hl x (by simp)
    simp only [List.cons_append, List.takeWhile_cons, hx, if_true]
    rw [ih (fun y hy => hl y (by simp [hy]))]

theorem dropWhile_append_not (p : Len → Bool) (l : List Len) (a : Len)
    (hl : ∀ x ∈ l, p x) (ha : ¬ p a) : (l ++ [a]).dropWhile p = [a] := by
  induction l with
  | nil => simp [List.dropWhile, ha]
  | cons x t ih =>
    have hx : p x := hl x (by simp)
    simp only [List.cons_append, List.dropWhile_cons, hx, if_true]
    exact ih (fun y hy => hl y (by simp [hy]))

/-- On a list sorted strictly by `bytes`, the entries at or beyond a threshold
form exactly the suffix left by `dropWhile`. -/
theorem filter_eq_dropWhile_of_sorted (c : Nat) (l : List Len)
    (hs : l.Pairwise (fun a b => a.bytes < b.bytes)) :
    l.filter (fun e => c ≤ e.bytes) = l.dropWhile (fun e => e.bytes < c) := by
  induction l with
  | nil => rfl
  | cons a t ih =>
    rcases List.pairwise_cons.mp hs with ⟨ha, ht⟩
    rw [List.filter_cons, List.dropWhile_cons]
    by_cases h : a.bytes < c
    · rw [if_neg (by simp only [decide_eq_true_eq]; omega),
          if_pos (by simp only [decide_eq_true_eq]; omega)]
      exact ih ht
    · rw [if_pos (by simp only [decide_eq_true_eq]; omega),
          if_neg (by simp only [decide_eq_true_eq]; omega)]
      congr 1
      exact List.filter_eq_self.mpr fun e he => by
        have := ha e he
        simp only [decide_eq_true_eq]
        omega

theorem Len.ext' {a b : Len} (h1 : a.bytes = b.bytes) (h2 : a.chars = b.chars) : a = b := by
  cases a; cases b; simp_all

theorem Len.zero_add (a : Len) : (⟨0, 0⟩ : Len) + a = a := by
  apply Len.ext' <;> simp [Len.add_def]

/-- For a non-empty list, dropping all but the final element leaves exactly
the last element. -/
theorem drop_pred_getLast {α : Type} :
    ∀ (l : List α) (x : α), l.getLast? = some x → l.drop (l.length - 1) = [x]
  | [], x, h => by simp at h
  | [a], x, h => by
    simp only [List.getLast?_singleton, Option.some.injEq] at h
    simp [h]
  | a :: b :: t, x, h => by
    have ih := drop_pred_getLast (b :: t) x (by rwa [List.getLast?_cons_cons] at h)
    simpa using ih

/-- The function `takeWordRev` keeps a prefix of its input. -/
theorem takeWordRev_front (l : List Char) (f : Bool) : takeWordRev l f <+: l := by
  induction l generalizing f with
  | nil => simp [takeWordRev]
  | cons c t ih =>
    simp only [takeWordRev]
    split
    · exact List.nil_prefix
    · obtain ⟨s, hsuf⟩ := ih (f || !rustIsWhitespace c)
      exact ⟨s, by simp [hsuf]⟩

/-- Componentwise characterisation of the length-summing fold of
`delete_word_backwards`. -/
theorem foldl_len_pairs (ps : List (Char × Char)) (a0 b0 : Len) :
    ps.foldl
      (fun (acc : Len × Len) x => (acc.1 + ⟨utf8Len x.1, 1⟩, acc.2 + ⟨utf8Len x.2, 1⟩))
      (a0, b0)
    = (a0 + ⟨byteLen (ps.map Prod.fst), ps.length⟩,
       b0 + ⟨byteLen (ps.map Prod.snd), ps.length⟩) := by
  induction ps generalizing a0 b0 with
  | nil =>
    simp only [List.foldl_nil, List.map_nil, byteLen_nil, List.length_nil]
    refine Prod.ext ?_ ?_ <;> · apply Len.ext' <;> simp [Len.add_def]
  | cons p t ih =>
    rw [List.foldl_cons, ih]
    simp only [List.map_cons, byteLen_cons, List.length_cons]
    refine Prod.ext ?_ ?_ <;> · apply Len.ext' <;> (simp [Len.add_def]; omega)

/-! ### The main tracker invariant -/

/-- Invariant of all reachable tracker states: the typed buffer and the
cursor advance in lockstep, the cursor's byte offset is the byte length of
the canonical prefix it has consumed, and the error list is strictly sorted
below the cursor. -/
structure Inv (b : Backend) : Prop where
  typed_len : b.typed.length = b.cursor.chars
  chars_le : b.cursor.chars ≤ b.text.length
  bytes_eq : b.cursor.bytes = byteLen (b.text.take b.cursor.chars)
  sorted : b.errors.Pairwise (fun a c => a.bytes < c.bytes)
  below : ∀ e ∈ b.errors, e.bytes < b.cursor.bytes

theorem inv_fresh (text : List Char) : Inv (Backend.fresh text) := by
  constructor <;> simp [Backend.fresh, byteLen_nil]

theorem dropBytes_cursor {b : Backend} (h : Inv b) :
    dropBytes b.text b.cursor.bytes = b.text.drop b.cursor.chars := by
  rw [h.bytes_eq, dropBytes_take]

theorem takeBytes_cursor {b : Backend} (h : Inv b) :
    takeBytes b.text b.cursor.bytes = b.text.take b.cursor.chars := by
  rw [h.bytes_eq, takeBytes_take]

/-- Unfolding of `push` in the non-boundary case. -/
theorem push_eq_of_drop {b : Backend} {c goal : Char} {rest : List Char}
    (hd : dropBytes b.text b.cursor.bytes = goal :: rest) :
    b.push c =
      { b with
        typed := b.typed ++ [c]
        errors :=
          if chars_are_equal_including_unicode_alternatives goal c then b.errors
          else b.errors ++ [b.cursor]
        cursor_prev := b.cursor
        cursor := ⟨b.cursor.bytes + utf8Len goal, b.cursor.chars + 1⟩ } := by
  unfold Backend.push
  rw [hd]

/-- Unfolding of `push` at the end of the canonical text. -/
theorem push_eq_of_end {b : Backend} {c : Char}
    (hd : dropBytes b.text b.cursor.bytes = []) : b.push c = b := by
  unfold Backend.push
  rw [hd]

theorem inv_push {b : Backend} (h : Inv b) (c : Char) : Inv (b.push c) := by
  cases hd : dropBytes b.text b.cursor.bytes with
  | nil => rw [push_eq_of_end hd]; exact h
  | cons goal rest =>
    have hdrop : b.text.drop b.cursor.chars = goal :: rest := by
      rw [← dropBytes_cursor h, hd]
    have hlt : b.cursor.chars < b.text.length := by
      by_contra hc
      rw [List.drop_eq_nil_of_le (by omega)] at hdrop
      exact List.noConfusion hdrop
    have hget : b.text[b.cursor.chars]? = some goal := by
      have h0 : (b.text.drop b.cursor.chars)[0]? = some goal := by rw [hdrop]; simp
      rwa [List.getElem?_drop, Nat.add_zero] at h0
    have htakesucc : b.text.take (b.cursor.chars + 1) = b.text.take b.cursor.chars ++ [goal] := by
      rw [List.take_succ, hget]; rfl
    rw [push_eq_of_drop hd]
    constructor
    · simp [h.typed_len]
    · simpa using hlt
    · simp only
      rw [htakesucc, byteLen_append, byteLen_cons, byteLen_nil, h.bytes_eq]
      omega
    · simp only
      split
      · exact h.sorted
      · rw [List.pairwise_append]
        refine ⟨h.sorted, List.pairwise_singleton .., ?_⟩
        intro a ha e he
        rw [List.mem_singleton] at he
        subst he
        exact h.below a ha
    · simp only
      have hg := utf8Len_pos goal
      split
      · intro e he
        have := h.below e he
        omega
      · intro e he
        rcases List.mem_append.mp he with h1 | h1
        · have := h.below e h1; omega
        · rw [List.mem_singleton] at h1; subst h1; omega

/-- The primitive `delete_backwards_impl` preserves the invariant whenever its two length
arguments describe the final `n` characters of the canonical prefix and the
final `n` characters of the typed buffer. -/
theorem inv_delete {b : Backend} (h : Inv b) (n : Nat) (hn : n ≤ b.cursor.chars)
    (len typl : Len)
    (hlen : len = ⟨byteLen ((b.text.take b.cursor.chars).drop (b.cursor.chars - n)), n⟩)
    (htyp : typl = ⟨byteLen (b.typed.drop (b.typed.length - n)), n⟩) :
    Inv (b.delete_backwards_impl len typl) := by
  subst hlen htyp
  have hL := h.typed_len
  have hsplit_typed : byteLen b.typed =
      byteLen (b.typed.take (b.typed.length - n)) + byteLen (b.typed.drop (b.typed.length - n)) := by
    conv_lhs => rw [← List.take_append_drop (b.typed.length - n) b.typed]
    rw [byteLen_append]
  have hsplit_text : byteLen (b.text.take b.cursor.chars) =
      byteLen (b.text.take (b.cursor.chars - n)) +
        byteLen ((b.text.take b.cursor.chars).drop (b.cursor.chars - n)) := by
    rw [← byteLen_take_split b.text (b.cursor.chars - n) b.cursor.chars (by omega)]
  have htyped2 : takeBytes b.typed (byteLen b.typed - byteLen (b.typed.drop (b.typed.length - n)))
      = b.typed.take (b.typed.length - n) := by
    rw [hsplit_typed, Nat.add_sub_cancel, takeBytes_take]
  unfold Backend.delete_backwards_impl
  constructor
  · simp only [htyped2, List.length_take, Len.sub_def]
    omega
  · simp only [Len.sub_def]
    have := h.chars_le
    omega
  · simp only [Len.sub_def]
    rw [h.bytes_eq, hsplit_text]
    omega
  · simp only
    exact h.sorted.sublist (List.take_sublist ..)
  · simp only [partition_point]
    intro e he
    rw [← List.prefix_iff_eq_take.mp ( List.takeWhile_prefix _)] at he
    have := List.mem_takeWhile_imp he
    simpa using this

theorem inv_pop {b : Backend} (h : Inv b) : Inv b.pop := by
  unfold Backend.pop
  cases hl : b.typed.getLast? with
  | none => exact h
  | some tc =>
    rw [takeBytes_cursor h]
    cases hg : (b.text.take b.cursor.chars).getLast? with
    | none => exact h
    | some ch =>
      have hT : b.typed ≠ [] := by intro e; rw [e] at hl; simp at hl
      have hchars : 0 < b.cursor.chars := by
        have h1 := h.typed_len
        have h2 := List.length_pos.mpr hT
        omega
      have hlen_take : (b.text.take b.cursor.chars).length = b.cursor.chars := by
        rw [List.length_take]; exact Nat.min_eq_left h.chars_le
      apply inv_delete h 1 hchars
      · have hdrop : (b.text.take b.cursor.chars).drop (b.cursor.chars - 1) = [ch] := by
          have := drop_pred_getLast _ _ hg
          rwa [hlen_take] at this
        rw [hdrop, byteLen_cons, byteLen_nil]
        simp
      · have hdrop : b.typed.drop (b.typed.length - 1) = [tc] := drop_pred_getLast _ _ hl
        rw [hdrop, byteLen_cons, byteLen_nil]
        simp

theorem inv_delete_word {b : Backend} (h : Inv b) : Inv b.delete_word_backwards := by
  have hkpfx := takeWordRev_front b.typed.reverse false
  set kept := takeWordRev b.typed.reverse false with hk
  have hklen : kept.length ≤ b.cursor.chars := by
    have h1 := hkpfx.length_le
    rw [List.length_reverse] at h1
    rw [← h.typed_len]
    exact h1
  have hlen_take : (b.text.take b.cursor.chars).length = b.cursor.chars := by
    rw [List.length_take]; exact Nat.min_eq_left h.chars_le
  have hfst : (kept.zip (b.text.take b.cursor.chars).reverse).map Prod.fst = kept := by
    apply List.map_fst_zip
    rw [List.length_reverse, hlen_take]
    exact hklen
  have hsnd := map_snd_zip_take kept (b.text.take b.cursor.chars).reverse
  have hzlen : (kept.zip (b.text.take b.cursor.chars).reverse).length = kept.length := by
    rw [List.length_zip, List.length_reverse, hlen_take]
    exact Nat.min_eq_left hklen
  have step : b.delete_word_backwards =
      b.delete_backwards_impl
        ⟨byteLen ((b.text.take b.cursor.chars).drop (b.cursor.chars - kept.length)), kept.length⟩
        ⟨byteLen (b.typed.drop (b.typed.length - kept.length)), kept.length⟩ := by
    simp only [Backend.delete_word_backwards]
    rw [takeBytes_cursor h, ← hk, foldl_len_pairs, hfst, hsnd, hzlen]
    have e1 : (b.text.take b.cursor.chars).reverse.take kept.length
        = ((b.text.take b.cursor.chars).drop ((b.text.take b.cursor.chars).length - kept.length)).reverse :=
      List.take_reverse
    have e2 : kept = b.typed.reverse.take kept.length := by
      have := List.prefix_iff_eq_take.mp hkpfx
      exact this
    have e3 : b.typed.reverse.take kept.length
        = (b.typed.drop (b.typed.length - kept.length)).reverse := by
      have := (List.take_reverse :
        b.typed.reverse.take kept.length = (b.typed.drop (b.typed.length - kept.length)).reverse)
      exact this
    rw [Len.zero_add, Len.zero_add]
    have hb : byteLen kept = byteLen (b.typed.drop (b.typed.length - kept.length)) := by
      conv_lhs => rw [e2, e3, byteLen_reverse]
    congr 1
    · rw [e1, byteLen_reverse, hlen_take]
    · exact Len.ext' hb rfl
  rw [step]
  exact inv_delete h kept.length hklen _ _ rfl rfl

/-- Every reachable state satisfies the invariant. -/
theorem inv_reachable {b : Backend} (h : Reachable b) : Inv b := by
  induction h with
  | init text => exact inv_fresh text
  | push c _ ih => exact inv_push ih c
  | pop _ ih => exact inv_pop ih
  | deleteWord _ ih => exact inv_delete_word ih

/-! ### Characterisations of the operations' fields -/

theorem impl_text (b : Backend) (len typl : Len) :
    (b.delete_backwards_impl len typl).text = b.text := rfl

theorem impl_cursor (b : Backend) (len typl : Len) :
    (b.delete_backwards_impl len typl).cursor = b.cursor - len := rfl

theorem impl_typed (b : Backend) (len typl : Len) :
    (b.delete_backwards_impl len typl).typed
      = takeBytes b.typed (byteLen b.typed - typl.bytes) := rfl

theorem impl_errors (b : Backend) (len typl : Len) :
    (b.delete_backwards_impl len typl).errors
      = b.errors.takeWhile (fun i => i.bytes < (b.cursor - len).bytes) := by
  show b.errors.take (partition_point ..) = _
  rw [partition_point, ← List.prefix_iff_eq_take.mp ( List.takeWhile_prefix _)]

theorem drop_length_takeWhile (p : Len → Bool) (l : List Len) :
    l.drop (l.takeWhile p).length = l.dropWhile p := by
  induction l with
  | nil => rfl
  | cons a t ih =>
    rw [List.takeWhile_cons, List.dropWhile_cons]
    by_cases h : p a
    · simp only [h, if_true, List.length_cons, List.drop_succ_cons]
      exact ih
    · simp [h]

theorem impl_deleted (b : Backend) (len typl : Len) :
    (b.delete_backwards_impl len typl).deleted_errors
      = b.deleted_errors ++ b.errors.dropWhile (fun i => i.bytes < (b.cursor - len).bytes) := by
  show b.deleted_errors ++ b.errors.drop (partition_point ..) = _
  rw [partition_point, drop_length_takeWhile]

theorem pop_nop {b : Backend} (h : b.typed.getLast? = none) : b.pop = b := by
  unfold Backend.pop
  rw [h]

theorem pop_eq {b : Backend} {tc ch : Char}
    (h1 : b.typed.getLast? = some tc)
    (h2 : (takeBytes b.text b.cursor.bytes).getLast? = some ch) :
    b.pop = b.delete_backwards_impl ⟨utf8Len ch, 1⟩ ⟨utf8Len tc, 1⟩ := by
  unfold Backend.pop
  rw [h1, h2]

/-- The operation `delete_word_backwards` always reduces to the shared primitive. -/
theorem delete_word_eq_impl (b : Backend) :
    ∃ len typl, b.delete_word_backwards = b.delete_backwards_impl len typl :=
  ⟨_, _, rfl⟩

theorem take_succ_of_drop {s : List Char} {k : Nat} {g : Char} {r : List Char}
    (h : s.drop k = g :: r) : s.take (k + 1) = s.take k ++ [g] := by
  have hget : s[k]? = some g := by
    have h0 : (s.drop k)[0]? = some g := by rw [h]; simp
    rwa [List.getElem?_drop, Nat.add_zero] at h0
  rw [List.take_succ, hget]
  rfl

theorem drop_cons_lt {s : List Char} {k : Nat} {g : Char} {r : List Char}
    (h : s.drop k = g :: r) : k < s.length := by
  by_contra hc
  rw [List.drop_eq_nil_of_le (by omega)] at h
  exact List.noConfusion h

/-- After a successful `push`, the byte cursor still marks a character
boundary: it is the byte length of the advanced canonical prefix. -/
theorem push_cursor_bytes {b : Backend} {goal : Char} {rest : List Char}
    (hInv : Inv b) (hd : dropBytes b.text b.cursor.bytes = goal :: rest) :
    b.cursor.bytes + utf8Len goal = byteLen (b.text.take (b.cursor.chars + 1)) := by
  have hdrop : b.text.drop b.cursor.chars = goal :: rest := by
    rw [← dropBytes_cursor hInv, hd]
  rw [take_succ_of_drop hdrop, byteLen_append, byteLen_cons, byteLen_nil, hInv.bytes_eq]
  omega

/-! ### Claim theorems about the tracker -/

/-- C1: for every tracker state reachable by push/pop/deleteWordBackwards
from a fresh session and any character `c`, if at least one canonical
character remains at the cursor, `push c` followed by `pop` restores
`cursor`, `typed` and `errors` to their pre-push values. -/
theorem c1_push_pop_round_trip {b : Backend} (c : Char) (h : Reachable b)
    (hr : dropBytes b.text b.cursor.bytes ≠ []) :
    ((b.push c).pop).cursor = b.cursor ∧ ((b.push c).pop).typed = b.typed ∧
      ((b.push c).pop).errors = b.errors := by
  have hInv := inv_reachable h
  obtain ⟨goal, rest, hd⟩ : ∃ g r, dropBytes b.text b.cursor.bytes = g :: r := by
    cases hdd : dropBytes b.text b.cursor.bytes with
    | nil => exact absurd hdd hr
    | cons g r => exact ⟨g, r, rfl⟩
  have hbytes := push_cursor_bytes hInv hd
  have hdrop : b.text.drop b.cursor.chars = goal :: rest := by
    rw [← dropBytes_cursor hInv, hd]
  have htakesucc := take_succ_of_drop hdrop
  have hpush := push_eq_of_drop (c := c) hd
  -- the last typed character is `c`, the canonical character before the
  -- advanced cursor is `goal`
  have hlast_typed : (b.push c).typed.getLast? = some c := by
    rw [hpush]
    exact List.getLast?_concat _
  have hlast_text : (takeBytes (b.push c).text (b.push c).cursor.bytes).getLast? = some goal := by
    rw [hpush]
    show (takeBytes b.text (Len.mk (b.cursor.bytes + utf8Len goal) (b.cursor.chars + 1)).bytes).getLast? = _
    simp only
    rw [hbytes, takeBytes_take, htakesucc]
    exact List.getLast?_concat _
  rw [pop_eq hlast_typed hlast_text]
  have hcursub : (b.push c).cursor - ⟨utf8Len goal, 1⟩ = b.cursor := by
    rw [hpush]
    exact Len.ext' (by simp [Len.sub_def]) (by simp [Len.sub_def])
  refine ⟨?_, ?_, ?_⟩
  · rw [impl_cursor, hcursub]
  · rw [impl_typed, hpush]
    show takeBytes (b.typed ++ [c]) (byteLen (b.typed ++ [c]) - utf8Len c) = b.typed
    have : byteLen (b.typed ++ [c]) - utf8Len c = byteLen b.typed := by
      rw [byteLen_append, byteLen_cons, byteLen_nil]
      omega
    rw [this, takeBytes_byteLen]
  · rw [impl_errors, hcursub]
    rw [hpush]
    show ((if chars_are_equal_including_unicode_alternatives goal c then b.errors
        else b.errors ++ [b.cursor]).takeWhile (fun i => i.bytes < b.cursor.bytes)) = b.errors
    have hall : ∀ e ∈ b.errors, (fun i => decide (i.bytes < b.cursor.bytes)) e = true := by
      intro e he
      simpa using hInv.below e he
    split
    · exact takeWhile_all _ _ hall
    · exact takeWhile_append_not _ _ _ hall (by simp)

/-- C1 witness: a concrete round trip on the text "ab". -/
theorem c1_witness :
    dropBytes (Backend.fresh ['a', 'b']).text (Backend.fresh ['a', 'b']).cursor.bytes ≠ [] ∧
    (((((Backend.fresh ['a', 'b']).push 'x').pop)).cursor = (Backend.fresh ['a', 'b']).cursor ∧
      ((((Backend.fresh ['a', 'b']).push 'x').pop)).typed = (Backend.fresh ['a', 'b']).typed ∧
      ((((Backend.fresh ['a', 'b']).push 'x').pop)).errors = (Backend.fresh ['a', 'b']).errors) :=
  ⟨by decide, c1_push_pop_round_trip 'x' (Reachable.init ['a', 'b']) (by decide)⟩

/-- C2: in every reachable tracker state, the character count of the typed
buffer equals the cursor's char offset. -/
theorem c2_typed_char_count {b : Backend} (h : Reachable b) :
    b.typed.length = b.cursor.chars :=
  (inv_reachable h).typed_len

/-- C2 witness: a concrete reachable state. -/
theorem c2_witness :
    ((((Backend.fresh ['a', 'b']).push 'x').push 'y').pop).typed.length
      = ((((Backend.fresh ['a', 'b']).push 'x').push 'y').pop).cursor.chars :=
  c2_typed_char_count
    (Reachable.pop (Reachable.push 'y' (Reachable.push 'x' (Reachable.init ['a', 'b']))))

/-- C3: in every reachable tracker state, the error list is strictly
ascending in the `Len` order (which compares byte positions) and every entry
lies strictly before the cursor. -/
theorem c3_errors_sorted_below {b : Backend} (h : Reachable b) :
    b.errors.Pairwise (· < ·) ∧ ∀ e ∈ b.errors, e < b.cursor :=
  ⟨(inv_reachable h).sorted, (inv_reachable h).below⟩

/-- C3 witness: a concrete reachable state with two errors. -/
theorem c3_witness :
    (((Backend.fresh ['a', 'b']).push 'x').push 'y').errors.Pairwise (· < ·) ∧
      ∀ e ∈ (((Backend.fresh ['a', 'b']).push 'x').push 'y').errors,
        e < (((Backend.fresh ['a', 'b']).push 'x').push 'y').cursor :=
  c3_errors_sorted_below (Reachable.push 'y' (Reachable.push 'x' (Reachable.init ['a', 'b'])))

/-- C4 counterexample: `delete_word_backwards` on an empty typed buffer is
not a complete no-op.  After `push 'a'; pop()` on the text "ab" the typed
buffer is empty and `previousCursor` is (1,1); calling
`delete_word_backwards` resets `previousCursor` to the cursor (0,0), so the
state changes. -/
theorem c4_counterexample :
    (((Backend.fresh ['a', 'b']).push 'a').pop).delete_word_backwards
      ≠ ((Backend.fresh ['a', 'b']).push 'a').pop := by decide

/-- C4 (amended): in every reachable state, `push` at the end of the
canonical text and `pop` on an empty typed buffer are complete no-ops, and
`delete_word_backwards` on an empty typed buffer leaves every field
unchanged except `cursor_prev`, which it sets to the current cursor.  All
three operations are total. -/
theorem c4_amended_boundary_noop {b : Backend} (c : Char) (h : Reachable b) :
    (dropBytes b.text b.cursor.bytes = [] → b.push c = b) ∧
    (b.typed = [] → b.pop = b) ∧
    (b.typed = [] → b.delete_word_backwards = { b with cursor_prev := b.cursor }) := by
  have hInv := inv_reachable h
  have hc : b.cursor - (⟨0, 0⟩ : Len) = b.cursor :=
    Len.ext' (by simp [Len.sub_def]) (by simp [Len.sub_def])
  have htw : b.errors.takeWhile (fun i => i.bytes < b.cursor.bytes) = b.errors :=
    takeWhile_all _ _ (by intro e he; simpa using hInv.below e he)
  refine ⟨fun hd => push_eq_of_end hd, fun ht => ?_, fun ht => ?_⟩
  · apply pop_nop
    rw [ht]
    rfl
  · have hstep : b.delete_word_backwards = b.delete_backwards_impl ⟨0, 0⟩ ⟨0, 0⟩ := by
      unfold Backend.delete_word_backwards
      rw [ht]
      rfl
    rw [hstep]
    unfold Backend.delete_backwards_impl
    simp only [partition_point]
    congr 1
    · rw [ht]
      rfl
    · rw [hc, htw, List.take_length]
    · rw [hc, htw, List.drop_length, List.append_nil]

/-- C4 witness: concrete boundary states — cursor at the end of the text for
`push`, and an empty typed buffer for `pop` and `delete_word_backwards`. -/
theorem c4_witness :
    (dropBytes ((Backend.fresh ['a']).push 'a').text
        ((Backend.fresh ['a']).push 'a').cursor.bytes = [] ∧
      ((Backend.fresh ['a']).push 'a').push 'z' = (Backend.fresh ['a']).push 'a') ∧
    ((((Backend.fresh ['a']).push 'a').pop).typed = [] ∧
      (((Backend.fresh ['a']).push 'a').pop).pop = ((Backend.fresh ['a']).push 'a').pop ∧
      (((Backend.fresh ['a']).push 'a').pop).delete_word_backwards
        = { ((Backend.fresh ['a']).push 'a').pop with
            cursor_prev := (((Backend.fresh ['a']).push 'a').pop).cursor }) :=
  ⟨⟨by decide,
    (c4_amended_boundary_noop 'z' (Reachable.push 'a' (Reachable.init ['a']))).1 (by decide)⟩,
   by decide,
   (c4_amended_boundary_noop 'z'
      (Reachable.pop (Reachable.push 'a' (Reachable.init ['a'])))).2.1 (by decide),
   (c4_amended_boundary_noop 'z'
      (Reachable.pop (Reachable.push 'a' (Reachable.init ['a'])))).2.2 (by decide)⟩

theorem pop_nop_inner {b : Backend} {tc : Char} (h1 : b.typed.getLast? = some tc)
    (h2 : (takeBytes b.text b.cursor.bytes).getLast? = none) : b.pop = b := by
  unfold Backend.pop
  rw [h1, h2]

theorem impl_deleted_filter {b : Backend} (hInv : Inv b) (len typl : Len) :
    (b.delete_backwards_impl len typl).deleted_errors
      = b.deleted_errors ++ b.errors.filter
          (fun e => (b.delete_backwards_impl len typl).cursor.bytes ≤ e.bytes) := by
  rw [impl_deleted, impl_cursor]
  congr 1
  rw [filter_eq_dropWhile_of_sorted _ _ hInv.sorted]

/-- C5 counterexample: two consecutive `pop`s with no render pass between
them.  On the text "ab", after `push 'x'; push 'y'; pop; pop` the
`deleted_errors` buffer holds both drained errors, not only the suffix
drained by the final `pop` (which the claim says replaces prior contents). -/
theorem c5_counterexample :
    (((((Backend.fresh ['a', 'b']).push 'x').push 'y').pop).pop).deleted_errors
      ≠ ((((Backend.fresh ['a', 'b']).push 'x').push 'y').pop).errors.filter
          (fun e =>
            (((((Backend.fresh ['a', 'b']).push 'x').push 'y').pop).pop).cursor.bytes
              ≤ e.bytes) := by decide

/-- C5 (amended): after `pop` or `delete_word_backwards` in any reachable
state, `deleted_errors` holds its previous contents followed by exactly the
errors whose positions are at or beyond the new cursor — the drained suffix
is appended, not substituted; only `clear_per_update_data` empties the
buffer. -/
theorem c5_amended_deleted_errors {b : Backend} (h : Reachable b) :
    ((b.pop).deleted_errors
        = b.deleted_errors ++ b.errors.filter (fun e => (b.pop).cursor.bytes ≤ e.bytes)) ∧
    ((b.delete_word_backwards).deleted_errors
        = b.deleted_errors
          ++ b.errors.filter (fun e => (b.delete_word_backwards).cursor.bytes ≤ e.bytes)) := by
  have hInv := inv_reachable h
  have hnil : b.errors.filter (fun e => b.cursor.bytes ≤ e.bytes) = [] := by
    apply List.filter_eq_nil_iff.mpr
    intro e he
    have := hInv.below e he
    simp only [decide_eq_true_eq]
    omega
  constructor
  · cases hl : b.typed.getLast? with
    | none =>
      rw [pop_nop hl, hnil, List.append_nil]
    | some tc =>
      cases hg : (takeBytes b.text b.cursor.bytes).getLast? with
      | none => rw [pop_nop_inner hl hg, hnil, List.append_nil]
      | some ch =>
        rw [pop_eq hl hg]
        exact impl_deleted_filter hInv _ _
  · obtain ⟨len, typl, himpl⟩ := delete_word_eq_impl b
    rw [himpl]
    exact impl_deleted_filter hInv _ _

/-- C5 witness: the amended statement applied after one error. -/
theorem c5_witness :
    ((((Backend.fresh ['a', 'b']).push 'x').pop).deleted_errors
        = ((Backend.fresh ['a', 'b']).push 'x').deleted_errors
          ++ ((Backend.fresh ['a', 'b']).push 'x').errors.filter
              (fun e => (((Backend.fresh ['a', 'b']).push 'x').pop).cursor.bytes ≤ e.bytes)) ∧
    ((((Backend.fresh ['a', 'b']).push 'x').delete_word_backwards).deleted_errors
        = ((Backend.fresh ['a', 'b']).push 'x').deleted_errors
          ++ ((Backend.fresh ['a', 'b']).push 'x').errors.filter
              (fun e =>
                (((Backend.fresh ['a', 'b']).push 'x').delete_word_backwards).cursor.bytes
                  ≤ e.bytes)) :=
  c5_amended_deleted_errors (Reachable.push 'x' (Reachable.init ['a', 'b']))

/-- C8 counterexample: Rust derives `PartialEq` structurally for `Len`, so
two positions with equal byte offsets but different char counts are not
equal, contradicting "equality delegates to the byte offset alone". -/
theorem c8_counterexample :
    (Len.mk 1 0).bytes = (Len.mk 1 1).bytes ∧ Len.mk 1 0 ≠ Len.mk 1 1 := by decide

/-- C8 (amended): the manual `Ord`/`PartialOrd` for `Len` delegates to the
byte offset alone, so `a < b` iff `a.bytes < b.bytes`; but `==` is the
derived structural equality, so `a = b` iff both the byte and the char
components agree. -/
theorem c8_amended_ordering (a b : Len) :
    (a < b ↔ a.bytes < b.bytes) ∧ (a = b ↔ a.bytes = b.bytes ∧ a.chars = b.chars) := by
  refine ⟨Iff.rfl, ?_, ?_⟩
  · rintro rfl
    exact ⟨rfl, rfl⟩
  · rintro ⟨h1, h2⟩
    exact Len.ext' h1 h2

/-- C9: a typed straight apostrophe matches a canonical U+2019 right single
quotation mark (no error, cursor advances by that character's width); a
typed 'a' against canonical 'b' records exactly one new error at the
pre-push cursor. -/
theorem c9_equivalence (b : Backend) (rest : List Char) :
    (dropBytes b.text b.cursor.bytes = '’' :: rest →
      (b.push '\'').errors = b.errors ∧
      (b.push '\'').cursor = ⟨b.cursor.bytes + utf8Len '’', b.cursor.chars + 1⟩) ∧
    (dropBytes b.text b.cursor.bytes = 'b' :: rest →
      (b.push 'a').errors = b.errors ++ [b.cursor] ∧
      (b.push 'a').cursor = ⟨b.cursor.bytes + utf8Len 'b', b.cursor.chars + 1⟩) := by
  constructor
  · intro hd
    rw [push_eq_of_drop hd]
    exact ⟨by simp only [if_pos (by decide : chars_are_equal_including_unicode_alternatives '’' '\'' = true)], rfl⟩
  · intro hd
    rw [push_eq_of_drop hd]
    exact ⟨by simp only [if_neg (by decide : ¬ chars_are_equal_including_unicode_alternatives 'b' 'a' = true)], rfl⟩

/-- C9 witness: concrete one-character texts for both halves. -/
theorem c9_witness :
    (dropBytes (Backend.fresh ['’']).text (Backend.fresh ['’']).cursor.bytes = '’' :: []) ∧
    (dropBytes (Backend.fresh ['b']).text (Backend.fresh ['b']).cursor.bytes = 'b' :: []) ∧
    (((Backend.fresh ['’']).push '\'').errors = (Backend.fresh ['’']).errors ∧
      ((Backend.fresh ['’']).push '\'').cursor
        = ⟨(Backend.fresh ['’']).cursor.bytes + utf8Len '’',
           (Backend.fresh ['’']).cursor.chars + 1⟩) ∧
    (((Backend.fresh ['b']).push 'a').errors
        = (Backend.fresh ['b']).errors ++ [(Backend.fresh ['b']).cursor] ∧
      ((Backend.fresh ['b']).push 'a').cursor
        = ⟨(Backend.fresh ['b']).cursor.bytes + utf8Len 'b',
           (Backend.fresh ['b']).cursor.chars + 1⟩) :=
  ⟨by decide, by decide,
   (c9_equivalence (Backend.fresh ['’']) []).1 (by decide),
   (c9_equivalence (Backend.fresh ['b']) []).2 (by decide)⟩

/-- C10: the equivalence relation is asymmetric — a typed straight
apostrophe matches a canonical curly one, but a typed curly apostrophe does
not match a canonical straight one, because the lookup consults only the
typed character's alternatives; pushing '’' against canonical '\'' records
an error. -/
theorem c10_asymmetric_alternatives :
    chars_are_equal_including_unicode_alternatives '’' '\'' = true ∧
    chars_are_equal_including_unicode_alternatives '\'' '’' = false ∧
    ∀ (b : Backend) (rest : List Char),
      dropBytes b.text b.cursor.bytes = '\'' :: rest →
      (b.push '’').errors = b.errors ++ [b.cursor] := by
  refine ⟨by decide, by decide, ?_⟩
  intro b rest hd
  rw [push_eq_of_drop hd]
  simp only [if_neg (by decide : ¬ chars_are_equal_including_unicode_alternatives '\'' '’' = true)]

/-- C10 witness: the error is recorded on a concrete text. -/
theorem c10_witness :
    dropBytes (Backend.fresh ['\'']).text (Backend.fresh ['\'']).cursor.bytes = '\'' :: [] ∧
    ((Backend.fresh ['\'']).push '’').errors
      = (Backend.fresh ['\'']).errors ++ [(Backend.fresh ['\'']).cursor] :=
  ⟨by decide, c10_asymmetric_alternatives.2.2 (Backend.fresh ['\'']) [] (by decide)⟩

/-! ### Text layout (`src/term.rs`) -/

/-- Rust `src/term.rs Linebreak`. -/
inductive Linebreak
  | Wrapped
  | Existing
  | Eof
deriving DecidableEq, Repr

/-- Rust `src/term.rs VirtualLine`.  The Rust field marking the end of the slice
is named `end`, a Lean keyword, so it is called `endPos` here. -/
structure VirtualLine where
  line : Nat
  start : Len
  endPos : Len
  separator_len : Len
  linebreak : Linebreak
deriving DecidableEq, Repr

/-- Byte/char length of a string, as a `Len`. -/
def lenOf (l : List Char) : Len := ⟨byteLen l, l.length⟩

theorem lenOf_append (a b : List Char) : lenOf (a ++ b) = lenOf a + lenOf b := by
  apply Len.ext' <;> simp [lenOf, Len.add_def, byteLen_append]

/-- Modelled from the spec: a helper of the greedy word-wrap.  The wrapping
itself is performed by the external `textwrap` crate, which is not part of
this repository, so it is modelled from the spec's words: "pack
whitespace-delimited words without exceeding W, breaking only at
whitespace", with a line break forced at a literal newline.  Starting just
after a packed word, repeatedly absorb the following whitespace gap and the
next word while the line stays within `w` characters and the gap holds no
newline.  `acc` is the char length packed so far; `fuel` bounds recursion
and any value at least the remaining text length is exact. -/
def packWords (w : Nat) : Nat → List Char → Nat → Nat
  | 0, _, acc => acc
  | fuel + 1, s, acc =>
    let gap := s.takeWhile rustIsWhitespace
    if gap.contains '\n' then acc
    else
      let rest := s.drop gap.length
      let wlen := (rest.takeWhile (fun c => !rustIsWhitespace c)).length
      if wlen = 0 then acc
      else if acc + gap.length + wlen ≤ w then
        packWords w fuel (rest.drop wlen) (acc + gap.length + wlen)
      else acc

/-- Modelled from the spec: the char length of the next greedy line
fragment — any leading whitespace, a first word taken unconditionally
(breaks happen only at whitespace, so an overlong word overflows), then
further words packed by `packWords` while width `w` allows. -/
def fragLen (w : Nat) (s : List Char) : Nat :=
  let lead := (s.takeWhile rustIsWhitespace).length
  let w0 := ((s.drop lead).takeWhile (fun c => !rustIsWhitespace c)).length
  packWords w s.length ((s.drop lead).drop w0) (lead + w0)

theorem packWords_ge (w : Nat) : ∀ (fuel : Nat) (s : List Char) (acc : Nat),
    acc ≤ packWords w fuel s acc := by
  intro fuel
  induction fuel with
  | zero => intro s acc; exact Nat.le_refl acc
  | succ fuel ih =>
    intro s acc
    simp only [packWords]
    split
    · exact Nat.le_refl acc
    · split
      · exact Nat.le_refl acc
      · split
        · exact Nat.le_trans (by omega) (ih _ _)
        · exact Nat.le_refl acc

theorem fragLen_pos (w : Nat) (s : List Char) (h : s ≠ []) : 0 < fragLen w s := by
  obtain ⟨c, t, rfl⟩ : ∃ c t, s = c :: t := by
    cases s with
    | nil => exact absurd rfl h
    | cons c t => exact ⟨c, t, rfl⟩
  unfold fragLen
  have hge := packWords_ge w (c :: t).length
  by_cases hws : rustIsWhitespace c
  · have hlead : 0 < ((c :: t).takeWhile rustIsWhitespace).length := by
      rw [List.takeWhile_cons, if_pos hws]
      simp
    calc 0 < _ := by omega
      _ ≤ _ := hge _ _
  · have hlead : (c :: t).takeWhile rustIsWhitespace = [] := by
      rw [List.takeWhile_cons, if_neg hws]
    rw [hlead]
    have hw0 : 0 < ((c :: t).takeWhile (fun c => !rustIsWhitespace c)).length := by
      rw [List.takeWhile_cons, if_pos (by simp [hws])]
      simp
    simp only [List.length_nil, List.drop_zero]
    calc 0 < _ := by omega
      _ ≤ _ := hge _ _

/-- Modelled from the spec: the greedy word-wrap of the whole text at width
`w`, as a list of (fragment, separator) pairs.  The separator is the
whitespace run consumed at each break; the Rust code recovers it from the
pointer gap between the consecutive slices returned by `textwrap::wrap`.
Fuel-driven; the wrapper below supplies sufficient fuel. -/
def wrapFragsF (w : Nat) : Nat → List Char → List (List Char × List Char)
  | 0, _ => []
  | fuel + 1, s =>
    if s = [] then []
    else
      let f := fragLen w s
      let sep := (s.drop f).takeWhile rustIsWhitespace
      (s.take f, sep) :: wrapFragsF w fuel ((s.drop f).drop sep.length)

def wrapFrags (w : Nat) (s : List Char) : List (List Char × List Char) :=
  wrapFragsF w s.length s

theorem takeWhile_append_drop_self (p : Char → Bool) (l : List Char) :
    l.takeWhile p ++ l.drop (l.takeWhile p).length = l := by
  conv_rhs => rw [← List.take_append_drop (l.takeWhile p).length l]
  congr 1
  exact List.prefix_iff_eq_take.mp ( List.takeWhile_prefix p)

/-- With sufficient fuel, the fragments and separators concatenate back to
the text. -/
theorem wrapFragsF_flatten (w : Nat) : ∀ (fuel : Nat) (s : List Char),
    s.length ≤ fuel →
    ((wrapFragsF w fuel s).map fun p => p.1 ++ p.2).flatten = s := by
  intro fuel
  induction fuel with
  | zero =>
    intro s hs
    have : s = [] := by
      cases s with
      | nil => rfl
      | cons c t => simp at hs
    subst this
    rfl
  | succ fuel ih =>
    intro s hs
    by_cases h : s = []
    · subst h; rfl
    · simp only [wrapFragsF, if_neg h, List.map_cons, List.flatten_cons]
      have hfrag := fragLen_pos w s h
      have hslen : 0 < s.length := List.length_pos.mpr h
      set f := fragLen w s with hf
      set sep := (s.drop f).takeWhile rustIsWhitespace with hsep
      have hrest : ((s.drop f).drop sep.length).length ≤ fuel := by
        have h1 : ((s.drop f).drop sep.length).length = s.length - f - sep.length := by
          simp only [List.length_drop]
        omega
      rw [ih _ hrest, List.append_assoc, takeWhile_append_drop_self, List.take_append_drop]

theorem wrapFrags_flatten (w : Nat) (s : List Char) :
    ((wrapFrags w s).map fun p => p.1 ++ p.2).flatten = s :=
  wrapFragsF_flatten w s.length s (Nat.le_refl _)

/-- The loop of `src/term.rs ChapterDisplay::wrap_text`, walking the
fragment list with one lookahead (the source's `(prev, it.next())` pairs).
`tl` is the total text length, `n` the running line number and `sum` the
running byte/char totals (the source's `byte_sum`/`char_sum`); each pair's
separator plays the role of the pointer-gap slice between `end` and
`next_start`.  The final entry is the synthetic Eof line running to the end
of the text. -/
def wrapTextGo (tl : Len) : Nat → Len → List (List Char × List Char) → List VirtualLine
  | n, sum, [] => [⟨n, sum, tl, ⟨0, 0⟩, Linebreak.Eof⟩]
  | n, sum, (frag, sep) :: rest =>
    match rest with
    | [] => [⟨n, sum, tl, ⟨0, 0⟩, Linebreak.Eof⟩]
    | _ :: _ =>
      let e := sum + lenOf frag
      let k := if sep.contains '\n' then Linebreak.Existing else Linebreak.Wrapped
      let n2 := if sep.contains '\n' then n + 2 else n + 1
      ⟨n, sum, e, lenOf sep, k⟩ :: wrapTextGo tl n2 (e + lenOf sep) rest

/-- Rust `src/term.rs ChapterDisplay::wrap_text`, over the modelled greedy
wrap. -/
def wrap_text (text : List Char) (width : Nat) : List VirtualLine :=
  wrapTextGo (lenOf text) 0 ⟨0, 0⟩ (wrapFrags width text)

/-- The sub-list of `l` from char offset `a` (inclusive) to `b`
(exclusive), the analogue of Rust's slicing `&text[a..b]`. -/
def sliceChars (l : List Char) (a b : Nat) : List Char := (l.take b).drop a

theorem getLast?_cons_ne {α : Type} (a : α) {l : List α} (h : l ≠ []) :
    (a :: l).getLast? = l.getLast? := by
  cases l with
  | nil => exact absurd rfl h
  | cons b t => exact List.getLast?_cons_cons ..

theorem sliceChars_append (consumed tail : List Char) (k : Nat) :
    sliceChars (consumed ++ tail) consumed.length (consumed.length + k) = tail.take k := by
  unfold sliceChars
  rw [List.take_append, List.drop_left]

theorem sliceChars_drop (consumed tail : List Char) :
    sliceChars (consumed ++ tail) consumed.length (consumed ++ tail).length = tail := by
  unfold sliceChars
  rw [List.take_length, List.drop_left]

/-- Structural tiling of the `wrap_text` loop: over any fragment list whose
flattening is the unconsumed tail of the text, the produced lines start at
the consumed position, are chained contiguously (`next.start = end +
separator`), end at the end of the text, and their slices concatenate to the
tail. -/
theorem wrapTextGo_spec (text : List Char) :
    ∀ (ps : List (List Char × List Char)) (n : Nat) (consumed : List Char),
      text = consumed ++ (ps.map fun p => p.1 ++ p.2).flatten →
      (wrapTextGo (lenOf text) n (lenOf consumed) ps ≠ []) ∧
      (∀ l ∈ (wrapTextGo (lenOf text) n (lenOf consumed) ps).head?,
        l.start = lenOf consumed) ∧
      List.Chain' (fun a b => b.start = a.endPos + a.separator_len)
        (wrapTextGo (lenOf text) n (lenOf consumed) ps) ∧
      (∀ l ∈ (wrapTextGo (lenOf text) n (lenOf consumed) ps).getLast?,
        l.endPos = lenOf text ∧ l.separator_len = ⟨0, 0⟩) ∧
      ((wrapTextGo (lenOf text) n (lenOf consumed) ps).map
          (fun vl => sliceChars text vl.start.chars (vl.endPos.chars + vl.separator_len.chars))).flatten
        = (ps.map fun p => p.1 ++ p.2).flatten := by
  intro ps
  induction ps with
  | nil =>
    intro n consumed htext
    refine ⟨by simp [wrapTextGo], by simp [wrapTextGo, lenOf], by simp [wrapTextGo], ?_, ?_⟩
    · simp [wrapTextGo]
    · have htext2 : text = consumed := by simpa using htext
      subst htext2
      simp only [wrapTextGo, List.map_cons, List.map_nil, List.flatten_cons,
        List.flatten_nil, List.append_nil]
      show sliceChars text text.length (text.length + 0) = []
      rw [Nat.add_zero]
      unfold sliceChars
      rw [List.take_length, List.drop_length]
  | cons p rest ih =>
    intro n consumed htext
    obtain ⟨frag, sep⟩ := p
    cases rest with
    | nil =>
      refine ⟨by simp [wrapTextGo], by simp [wrapTextGo, lenOf], by simp [wrapTextGo], ?_, ?_⟩
      · simp [wrapTextGo]
      · simp only [wrapTextGo, List.map_cons, List.map_nil, List.flatten_cons,
          List.flatten_nil, List.append_nil] at htext ⊢
        subst htext
        show sliceChars (consumed ++ (frag ++ sep)) consumed.length
            ((consumed ++ (frag ++ sep)).length + 0) = frag ++ sep
        rw [Nat.add_zero]
        exact sliceChars_drop consumed (frag ++ sep)
    | cons q qs =>
      have htext' : text = (consumed ++ frag ++ sep)
          ++ ((q :: qs).map fun p => p.1 ++ p.2).flatten := by
        rw [htext]
        simp [List.append_assoc]
      obtain ⟨ihne, ihhead, ihchain, ihlast, ihflat⟩ :=
        ih (if sep.contains '\n' then n + 2 else n + 1) (consumed ++ frag ++ sep) htext'
      have hsum : lenOf consumed + lenOf frag + lenOf sep = lenOf (consumed ++ frag ++ sep) := by
        rw [lenOf_append, lenOf_append]
      have hgo : wrapTextGo (lenOf text) n (lenOf consumed) ((frag, sep) :: q :: qs)
          = ⟨n, lenOf consumed, lenOf consumed + lenOf frag, lenOf sep,
              if sep.contains '\n' then Linebreak.Existing else Linebreak.Wrapped⟩
            :: wrapTextGo (lenOf text) (if sep.contains '\n' then n + 2 else n + 1)
                (lenOf consumed + lenOf frag + lenOf sep) (q :: qs) := by
        simp only [wrapTextGo]
      rw [hgo, hsum]
      refine ⟨by simp, by simp, ?_, ?_, ?_⟩
      · rw [List.chain'_cons']
        refine ⟨?_, ihchain⟩
        intro l hl
        have := ihhead l hl
        rw [this, ← hsum]
      · intro l hl
        rw [getLast?_cons_ne _ ihne] at hl
        exact ihlast l hl
      · rw [List.map_cons, List.flatten_cons, ihflat]
        simp only [List.map_cons, List.flatten_cons]
        congr 1
        show sliceChars text consumed.length
            ((lenOf consumed + lenOf frag).chars + (lenOf sep).chars) = frag ++ sep
        have hchars : (lenOf consumed + lenOf frag).chars + (lenOf sep).chars
            = consumed.length + (frag.length + sep.length) := by
          simp [lenOf, Len.add_def]
          omega
        rw [hchars, htext]
        simp only [List.map_cons, List.flatten_cons]
        rw [sliceChars_append,
            show frag.length + sep.length = (frag ++ sep).length from
              (List.length_append ..).symm,
            List.take_left]

/-- C6: for every input text and width W > 0, the produced VirtualLines tile
the text — the first line starts at offset 0, each line's range followed by
its separator is immediately followed by the next line's start, the last
line ends at the end of the text with an empty separator, and concatenating
each line's text slice with its separator slice reproduces the text. -/
theorem c6_layout_tiles (text : List Char) (w : Nat) (hw : 0 < w) :
    (wrap_text text w ≠ []) ∧
    (∀ l ∈ (wrap_text text w).head?, l.start = ⟨0, 0⟩) ∧
    List.Chain' (fun a b => b.start = a.endPos + a.separator_len) (wrap_text text w) ∧
    (∀ l ∈ (wrap_text text w).getLast?, l.endPos = lenOf text ∧ l.separator_len = ⟨0, 0⟩) ∧
    ((wrap_text text w).map
        (fun vl => sliceChars text vl.start.chars (vl.endPos.chars + vl.separator_len.chars))).flatten
      = text := by
  have hflat := wrapFrags_flatten w text
  have hspec := wrapTextGo_spec text (wrapFrags w text) 0 []
    (by rw [List.nil_append, hflat])
  obtain ⟨h1, h2, h3, h4, h5⟩ := hspec
  exact ⟨h1, h2, h3, h4, by rw [wrap_text]; show _ = text; rw [show (⟨0,0⟩ : Len) = lenOf [] from rfl, h5, hflat]⟩

/-- C6 witness: the tiling at a concrete text and width. -/
theorem c6_witness :
    0 < 2 ∧
    ((wrap_text ['a', 'b', ' ', 'c', 'd'] 2 ≠ []) ∧
      (∀ l ∈ (wrap_text ['a', 'b', ' ', 'c', 'd'] 2).head?, l.start = ⟨0, 0⟩) ∧
      List.Chain' (fun a b => b.start = a.endPos + a.separator_len)
        (wrap_text ['a', 'b', ' ', 'c', 'd'] 2) ∧
      (∀ l ∈ (wrap_text ['a', 'b', ' ', 'c', 'd'] 2).getLast?,
        l.endPos = lenOf ['a', 'b', ' ', 'c', 'd'] ∧ l.separator_len = ⟨0, 0⟩) ∧
      ((wrap_text ['a', 'b', ' ', 'c', 'd'] 2).map
          (fun vl => sliceChars ['a', 'b', ' ', 'c', 'd']
            vl.start.chars (vl.endPos.chars + vl.separator_len.chars))).flatten
        = ['a', 'b', ' ', 'c', 'd']) :=
  ⟨by decide, c6_layout_tiles ['a', 'b', ' ', 'c', 'd'] 2 (by decide)⟩

/-- C7: the text "ab\ncd" at width 10 yields exactly two virtual lines —
line number 0 covering "ab" with an Existing break, and line number 2
covering "cd" with an Eof break — and typing "ab" from a fresh tracker over
that text records no errors. -/
theorem c7_scenario :
    wrap_text ['a', 'b', '\n', 'c', 'd'] 10
      = [⟨0, ⟨0, 0⟩, ⟨2, 2⟩, ⟨1, 1⟩, Linebreak.Existing⟩,
         ⟨2, ⟨3, 3⟩, ⟨5, 5⟩, ⟨0, 0⟩, Linebreak.Eof⟩] ∧
    sliceChars ['a', 'b', '\n', 'c', 'd'] 0 2 = ['a', 'b'] ∧
    sliceChars ['a', 'b', '\n', 'c', 'd'] 3 5 = ['c', 'd'] ∧
    (((Backend.fresh ['a', 'b', '\n', 'c', 'd']).push 'a').push 'b').errors = [] := by
  decide

end Ept
